import Mathlib

/-!
Verification of the bounded in-process API cache (`InMemoryApiCache`) and its
helpers, as implemented in the repository's cache module.

The TypeScript class is shallowly embedded as pure Lean functions over an
explicit `CacheState`.  JavaScript `Map`s are modelled as association lists
that preserve insertion order (JS `Map.set` on an existing key keeps the
original position; a new key is appended at the end), JS strings as Lean
`String`/`List Char`, JS integers and timestamps as `Int`, and the few places
where a TTL argument can be `NaN`/`±Infinity` use an explicit `JSNum` sum.
`Date.now()` is passed in as an explicit `now : Int` parameter.  The
`withAtomicOperation` reentrancy guard is the identity in this sequential
model: the flag is `false` at the start of every public operation and reset
in its `finally` block, so in a linearized execution the guarded body always
runs.  Fallible operations return `Except CacheError`, mirroring thrown
errors, paired with the post-state.
-/

/-- Errors thrown by the cache, one constructor per distinct error message. -/
inductive CacheError where
  /-- "Cache key must be a non-empty string" -/
  | invalidKey
  /-- "Cache key too long (max 1000 characters)" -/
  | keyTooLong
  /-- "TTL must be a non-negative finite number" -/
  | invalidTTL
  /-- "TTL too large (max 24 hours)" -/
  | ttlTooLarge
  /-- "Cache value is not serializable" -/
  | notSerializable
  /-- "Cache value contains circular references" -/
  | circularRef
  /-- "Cache value too large (max 10MB)" -/
  | valueTooLarge
deriving DecidableEq, Repr

/-- JS `input.split(sep)` for a single-character separator, over `List Char`. -/
def splitOnChar (sep : Char) : List Char → List (List Char)
  | [] => [[]]
  | c :: rest =>
    let r := splitOnChar sep rest
    if c = sep then [] :: r
    else
      match r with
      | [] => [[c]]
      | t :: ts => (c :: t) :: ts

/-- JS `parts.join(sep)` for a single-character separator. -/
def joinChar (sep : Char) : List (List Char) → List Char
  | [] => []
  | [t] => t
  | t :: ts => t ++ sep :: joinChar sep ts

/-- `InMemoryApiCache.replaceEmailLikePattern`: replaces a token shaped like
`local@domain.tld` by the placeholder `[email]`. -/
def replaceEmailLikePattern (part : List Char) : List Char :=
  let atIndex : Int :=
    match part.findIdx? (fun c => c = '@') with
    | some i => (i : Int)
    | none => -1
  if atIndex ≤ 0 ∨ atIndex ≥ (part.length : Int) - 1 then part
  else
    let afterAt := part.drop (atIndex.toNat + 1)
    let hasValidDomain :=
      afterAt.contains '.' && afterAt.head? != some '.' && afterAt.getLast? != some '.'
    if hasValidDomain then "[email]".data else part

/-- `InMemoryApiCache.sanitizeEmailPatterns`. -/
def sanitizeEmailPatterns (input : List Char) : List Char :=
  if !input.contains '@' then input
  else joinChar ' ' ((splitOnChar ' ' input).map replaceEmailLikePattern)

/-- The longest digit prefix interpreted as a decimal number, `none` when there
is no digit (the `NaN` outcome of `parseInt`). -/
def digitsPrefixVal (s : List Char) : Option Int :=
  let ds := s.takeWhile (fun c => c.isDigit)
  if ds.isEmpty then none
  else some (ds.foldl (fun a c => a * 10 + ((c.toNat : Int) - 48)) 0)

/-- JS `parseInt(s, 10)`: skip leading whitespace, optional sign, longest
digit prefix; `none` models the `NaN` result. -/
def jsParseIntDec (s : List Char) : Option Int :=
  let t := s.dropWhile (fun c => c == ' ' || c == '\t' || c == '\n' || c == '\r')
  match t with
  | '-' :: r => (digitsPrefixVal r).map (fun n => -n)
  | '+' :: r => digitsPrefixVal r
  | _ => digitsPrefixVal t

/-- `InMemoryApiCache.isIPv4Pattern`: four dot-separated parts, each the
canonical decimal representation of an octet 0–255. -/
def isIPv4Pattern (str : List Char) : Bool :=
  let parts := splitOnChar '.' str
  if parts.length ≠ 4 then false
  else
    parts.all (fun part =>
      match jsParseIntDec part with
      | none => false
      | some num => decide (0 ≤ num) && decide (num ≤ 255) && part == (toString num).data)

/-- `InMemoryApiCache.sanitizeIpPatterns`. -/
def sanitizeIpPatterns (input : List Char) : List Char :=
  joinChar ' '
    ((splitOnChar ' ' input).map (fun token => if isIPv4Pattern token then "[ip]".data else token))

/-- `InMemoryApiCache.isLongHexString`: length ≥ 32 and all hex digits. -/
def isLongHexString (token : List Char) : Bool :=
  if token.length < 32 then false
  else
    token.all (fun c =>
      (decide ('0' ≤ c) && decide (c ≤ '9')) ||
      (decide ('a' ≤ c) && decide (c ≤ 'f')) ||
      (decide ('A' ≤ c) && decide (c ≤ 'F')))

/-- `InMemoryApiCache.sanitizeHashPatterns`. -/
def sanitizeHashPatterns (input : List Char) : List Char :=
  joinChar ' '
    ((splitOnChar ' ' input).map (fun token => if isLongHexString token then "[hash]".data else token))

/-- `InMemoryApiCache.truncateToLimit`: `input.substring(0, 200)`. -/
def truncateToLimit (input : List Char) : List Char :=
  input.take 200

/-- `InMemoryApiCache.sanitizeKey`: the full sanitization pipeline.  The
`logSanitizationIfChanged` call only logs and is omitted. -/
def sanitizeKey (key : String) : String :=
  ⟨truncateToLimit (sanitizeHashPatterns (sanitizeIpPatterns (sanitizeEmailPatterns key.data)))⟩

/-- Acyclic JavaScript values, as storable in the cache.  Circular object
graphs are not representable in an inductive type; the `visited` set in the
source's `containsFunction` exists only to tolerate cycles and is the
identity on acyclic values. -/
inductive JSVal where
  | null
  | undef
  | bool (b : Bool)
  | num (n : Int)
  | str (s : String)
  | fn
  | arr (elems : List JSVal)
  | obj (fields : List (String × JSVal))

/-- JS `value === null`. -/
def JSVal.isNull : JSVal → Bool
  | .null => true
  | _ => false

/-- JS `value === undefined`. -/
def JSVal.isUndef : JSVal → Bool
  | .undef => true
  | _ => false

mutual

/-- `InMemoryApiCache.containsFunction`: recursive scan for function values
(`Array.some` / `for-in` loops become explicit list recursion).  On acyclic
values the `visited` `WeakSet` never fires, so it is omitted. -/
def containsFunction : JSVal → Bool
  | .fn => true
  | .arr xs => containsFunctionElems xs
  | .obj fs => containsFunctionFields fs
  | _ => false

/-- `value.some(item => this.containsFunction(item, visited))`. -/
def containsFunctionElems : List JSVal → Bool
  | [] => false
  | v :: vs => containsFunction v || containsFunctionElems vs

/-- The `for (const key in value)` property scan. -/
def containsFunctionFields : List (String × JSVal) → Bool
  | [] => false
  | (_, v) :: fs => containsFunction v || containsFunctionFields fs

end

/-- One character of a JSON string literal, escaped as `JSON.stringify` does. -/
def jsonEscapeChar (c : Char) : String :=
  if c = '"' then "\\\""
  else if c = '\\' then "\\\\"
  else if c = '\n' then "\\n"
  else if c = '\r' then "\\r"
  else if c = '\t' then "\\t"
  else if c = '\x08' then "\\b"
  else if c = '\x0c' then "\\f"
  else if c.toNat < 32 then
    "\\u00" ++ String.singleton (Nat.digitChar (c.toNat / 16)) ++
      String.singleton (Nat.digitChar (c.toNat % 16))
  else String.singleton c

/-- A JSON string literal with quotes, as produced by `JSON.stringify`. -/
def jsonQuote (s : String) : String :=
  "\"" ++ String.join (s.data.map jsonEscapeChar) ++ "\""

mutual

/-- `JSON.stringify` on acyclic values; `none` models the `undefined` result
(top-level `undefined` or function).  Inside arrays such elements render as
`null`; inside objects the field is omitted. -/
def jsSerialize : JSVal → Option String
  | .null => some "null"
  | .undef => none
  | .fn => none
  | .bool b => some (if b then "true" else "false")
  | .num n => some (toString n)
  | .str s => some (jsonQuote s)
  | .arr xs => some ("[" ++ String.intercalate "," (jsSerializeElems xs) ++ "]")
  | .obj fs => some ("\x7b" ++ String.intercalate "," (jsSerializeFields fs) ++ "\x7d")

/-- Array elements: non-serializable elements render as `null`. -/
def jsSerializeElems : List JSVal → List String
  | [] => []
  | v :: vs =>
    (match jsSerialize v with
     | some r => r
     | none => "null") :: jsSerializeElems vs

/-- Object fields: non-serializable fields are omitted. -/
def jsSerializeFields : List (String × JSVal) → List String
  | [] => []
  | (k, v) :: fs =>
    match jsSerialize v with
    | some r => (jsonQuote k ++ ":" ++ r) :: jsSerializeFields fs
    | none => jsSerializeFields fs

end

/-- A JS `number` as far as the TTL argument can observe it: `NaN`, the two
infinities, or an integer (fractional TTLs are not exercised by any caller
and every comparison in the source is order-only). -/
inductive JSNum where
  | nan
  | posInf
  | negInf
  | int (n : Int)
deriving DecidableEq, Repr

/-- JS `x < m` for a `JSNum` (comparisons with `NaN` are false). -/
def JSNum.ltInt : JSNum → Int → Bool
  | .nan, _ => false
  | .posInf, _ => false
  | .negInf, _ => true
  | .int n, m => n < m

/-- JS `x > m` for a `JSNum` (comparisons with `NaN` are false). -/
def JSNum.gtInt : JSNum → Int → Bool
  | .nan, _ => false
  | .posInf, _ => true
  | .negInf, _ => false
  | .int n, m => m < n

/-- JS `Number.isFinite`. -/
def JSNum.isFinite : JSNum → Bool
  | .int _ => true
  | _ => false

/-- JS truthiness of a number: `0` and `NaN` are falsy. -/
def JSNum.truthy : JSNum → Bool
  | .nan => false
  | .int 0 => false
  | _ => true

/-- The raw `key: unknown` argument of the public operations: a string, or
any non-string value (`null`, `undefined`, numbers, objects, …, which the
type check rejects uniformly). -/
inductive JSKey where
  | str (s : String)
  | nonStr
deriving DecidableEq, Repr

/-- `InMemoryApiCache.validateKeyType`: non-empty string of at most 1000
characters; returns the key as a string on success. -/
def validateKeyType : JSKey → Except CacheError String
  | .nonStr => .error .invalidKey
  | .str s =>
    if s = "" then .error .invalidKey
    else if s.length > 1000 then .error .keyTooLong
    else .ok s

/-- `InMemoryApiCache.validateAndSanitizeKey`: type/length validation, then
sanitization (`validateSanitizedKey` performs no further checks). -/
def validateAndSanitizeKey (key : JSKey) : Except CacheError String :=
  match validateKeyType key with
  | .error e => .error e
  | .ok s => .ok (sanitizeKey s)

/-- `InMemoryApiCache.validateTTL`. -/
def validateTTL : Option JSNum → Except CacheError Unit
  | none => .ok ()
  | some t =>
    if t.ltInt 0 || !t.isFinite then .error .invalidTTL
    else if t.gtInt 86400000 then .error .ttlTooLarge
    else .ok ()

/-- `InMemoryApiCache.validateValue`: rejects values containing functions,
then serializes once and enforces the 10 MiB limit on the serialized byte
length; returns the serialized form (`none` for a top-level `undefined`).
The `catch` around `JSON.stringify` distinguishes circular-reference
failures; on acyclic values serialization never throws, so the `none` branch
below (stringify returning `undefined`) is unreachable past the earlier
checks and is folded into `notSerializable`. -/
def validateValue (value : JSVal) : Except CacheError (Option String) :=
  if value.isUndef then .ok none
  else if containsFunction value then .error .notSerializable
  else
    match jsSerialize value with
    | none => .error .notSerializable
    | some sv =>
      if sv.utf8ByteSize > 10 * 1024 * 1024 then .error .valueTooLarge
      else .ok (some sv)

/-- `InMemoryApiCache.validateInput`: TTL then value (key validation happens
separately in `validateAndSanitizeKey`). -/
def validateInput (value : JSVal) (ttl : Option JSNum) : Except CacheError (Option String) :=
  match validateTTL ttl with
  | .error e => .error e
  | .ok _ => validateValue value

/-- `InMemoryApiCache.estimateSize`: serialized byte length plus a 40 %
structural-overhead estimate.  `Math.ceil(jsonSize * 0.4)` is modelled as the
exact rational ceiling `⌈2·jsonSize/5⌉`. -/
def estimateSize (serializedValue : String) : Nat :=
  let jsonSize := serializedValue.utf8ByteSize
  jsonSize + (2 * jsonSize + 4) / 5

/-- JS `map.get k` on the association-list model of a `Map`. -/
def mapGet (k : String) : List (String × α) → Option α
  | [] => none
  | (k', v) :: rest => if k' = k then some v else mapGet k rest

/-- JS `map.set k v`: updates in place when the key is present (keeping its
position), otherwise appends at the end — exactly the `Map` insertion-order
contract. -/
def mapSet (k : String) (v : α) : List (String × α) → List (String × α)
  | [] => [(k, v)]
  | (k', v') :: rest => if k' = k then (k, v) :: rest else (k', v') :: mapSet k v rest

/-- JS `map.delete k` (dropping the result): removes the entry if present. -/
def mapDelete (k : String) : List (String × α) → List (String × α)
  | [] => []
  | (k', v') :: rest => if k' = k then rest else (k', v') :: mapDelete k rest

/-- The keys of a map in insertion order. -/
def keysOf (l : List (String × α)) : List String :=
  l.map Prod.fst

/-- `ApiCacheConfig` (metrics and logging fields have no observable effect on
cache state and are omitted). -/
structure ApiCacheConfig where
  defaultTtl : Int
  maxSize : Nat
  maxMemoryMB : Nat
  cleanupInterval : Int
  strictValidation : Bool
deriving DecidableEq, Repr

/-- `CacheEntry`. -/
structure CacheEntry where
  data : JSVal
  timestamp : Int
  ttl : Int
  hitCount : Nat
  lastAccessed : Int
  sizeBytes : Nat

/-- The mutable fields of an `InMemoryApiCache` instance.  `timerArmed`
models whether `cleanupInterval` currently holds a live timer handle. -/
structure CacheState where
  store : List (String × CacheEntry)
  accessOrder : List (String × Int)
  totalAccesses : Nat
  totalHits : Nat
  memoryUsageBytes : Int
  isDestroyed : Bool
  timerArmed : Bool

/-- The constructor's initial state (`startCleanup` runs when
`cleanupInterval > 0`). -/
def initState (cfg : ApiCacheConfig) : CacheState :=
  { store := []
    accessOrder := []
    totalAccesses := 0
    totalHits := 0
    memoryUsageBytes := 0
    isDestroyed := false
    timerArmed := decide (cfg.cleanupInterval > 0) }

/-- `config.maxMemoryMB * 1024 * 1024`. -/
def maxSizeBytes (cfg : ApiCacheConfig) : Int :=
  (cfg.maxMemoryMB : Int) * 1024 * 1024

/-- The total of `sizeBytes` over the entries of a store. -/
def storeMemSum (store : List (String × CacheEntry)) : Nat :=
  (store.map (fun p => p.2.sizeBytes)).sum

/-- `InMemoryApiCache.evictOldest`: drop the head of the LRU order (the first
key of `accessOrder`) from both maps and decrement memory.  The JS guard
`if (!firstKey)` is falsy both for `undefined` (empty map) and for the empty
string. -/
def evictOldest (s : CacheState) : CacheState :=
  match s.accessOrder.head? with
  | none => s
  | some (firstKey, _) =>
    if firstKey = "" then s
    else
      match mapGet firstKey s.store with
      | none => { s with accessOrder := mapDelete firstKey s.accessOrder }
      | some entry =>
        { s with
          store := mapDelete firstKey s.store
          accessOrder := mapDelete firstKey s.accessOrder
          memoryUsageBytes := s.memoryUsageBytes - (entry.sizeBytes : Int) }

/-- The `while` loop of `InMemoryApiCache.ensureCapacity`, with explicit
fuel.  On well-formed states the fuel `accessOrder.length + 1` used by
`ensureCapacity` is never exhausted (each iteration shortens `accessOrder`),
so the definition coincides with the source loop there. -/
def ensureCapacityFuel (cfg : ApiCacheConfig) (newEntrySize : Nat) : Nat → CacheState → CacheState
  | 0, s => s
  | fuel + 1, s =>
    if s.store.length ≥ cfg.maxSize ∨ s.memoryUsageBytes + (newEntrySize : Int) > maxSizeBytes cfg then
      if s.store.length = 0 then s
      else ensureCapacityFuel cfg newEntrySize fuel (evictOldest s)
    else s

/-- `InMemoryApiCache.ensureCapacity`. -/
def ensureCapacity (cfg : ApiCacheConfig) (newEntrySize : Nat) (s : CacheState) : CacheState :=
  ensureCapacityFuel cfg newEntrySize (s.accessOrder.length + 1) s

/-- `ttl || this.config.defaultTtl` — `0` and `NaN` are falsy, so an explicit
TTL of `0` is replaced by the default.  The non-finite branches are
unreachable after `validateTTL` but are given the JS value's behaviour has no
`Int` image; they keep the function total. -/
def entryTtlOf (cfg : ApiCacheConfig) : Option JSNum → Int
  | none => cfg.defaultTtl
  | some (.int n) => if n = 0 then cfg.defaultTtl else n
  | some .nan => cfg.defaultTtl
  | some .posInf => cfg.defaultTtl
  | some .negInf => cfg.defaultTtl

/-- `serializedValue ? this.estimateSize(serializedValue) : 0` — the string
is also falsy when empty (unreachable: `JSON.stringify` output is never
empty). -/
def sizeBytesOf : Option String → Nat
  | none => 0
  | some sv => if sv = "" then 0 else estimateSize sv

/-- `InMemoryApiCache.set`.  Every validation failure is rethrown (the catch
block always re-throws for `set`); no mutation precedes validation. -/
def setOp (cfg : ApiCacheConfig) (now : Int) (key : JSKey) (value : JSVal)
    (ttl : Option JSNum) (s : CacheState) : Except CacheError Unit × CacheState :=
  match validateAndSanitizeKey key with
  | .error e => (.error e, s)
  | .ok sanitizedKey =>
    match validateInput value ttl with
    | .error e => (.error e, s)
    | .ok serializedValue =>
      let entryTtl := entryTtlOf cfg ttl
      let sizeBytes := sizeBytesOf serializedValue
      let s1 := ensureCapacity cfg sizeBytes s
      let existingEntry := mapGet sanitizedKey s1.store
      let memoryDelta : Int :=
        match existingEntry with
        | some old => (sizeBytes : Int) - (old.sizeBytes : Int)
        | none => (sizeBytes : Int)
      let entry : CacheEntry :=
        { data := value
          timestamp := now
          ttl := entryTtl
          hitCount := 0
          lastAccessed := now
          sizeBytes := sizeBytes }
      (.ok (),
        { s1 with
          store := mapSet sanitizedKey entry s1.store
          accessOrder := mapSet sanitizedKey now s1.accessOrder
          memoryUsageBytes := s1.memoryUsageBytes + memoryDelta })

/-- `InMemoryApiCache.get`.  The miss sentinel is the JS `null`
(`JSVal.null`).  In default mode a validation error degrades to the
sentinel; under `strictValidation` it is rethrown. -/
def getOp (cfg : ApiCacheConfig) (now : Int) (key : JSKey) (s : CacheState) :
    Except CacheError JSVal × CacheState :=
  match validateAndSanitizeKey key with
  | .error e => if cfg.strictValidation then (.error e, s) else (.ok .null, s)
  | .ok sanitizedKey =>
    let entry? := mapGet sanitizedKey s.store
    let s1 := { s with totalAccesses := s.totalAccesses + 1 }
    match entry? with
    | none => (.ok .null, s1)
    | some entry =>
      if now - entry.timestamp > entry.ttl then
        (.ok .null,
          { s1 with
            store := mapDelete sanitizedKey s1.store
            accessOrder := mapDelete sanitizedKey s1.accessOrder
            memoryUsageBytes := s1.memoryUsageBytes - (entry.sizeBytes : Int) })
      else
        let entry' := { entry with hitCount := entry.hitCount + 1, lastAccessed := now }
        (.ok entry.data,
          { s1 with
            totalHits := s1.totalHits + 1
            store := mapSet sanitizedKey entry' s1.store
            accessOrder := mapSet sanitizedKey now (mapDelete sanitizedKey s1.accessOrder) })

/-- `InMemoryApiCache.has`: existence probe with lazy expiry; touches neither
the hit counters nor the LRU position. -/
def hasOp (cfg : ApiCacheConfig) (now : Int) (key : JSKey) (s : CacheState) :
    Except CacheError Bool × CacheState :=
  match validateAndSanitizeKey key with
  | .error e => if cfg.strictValidation then (.error e, s) else (.ok false, s)
  | .ok sanitizedKey =>
    match mapGet sanitizedKey s.store with
    | none => (.ok false, s)
    | some entry =>
      if now - entry.timestamp > entry.ttl then
        (.ok false,
          { s with
            store := mapDelete sanitizedKey s.store
            accessOrder := mapDelete sanitizedKey s.accessOrder
            memoryUsageBytes := s.memoryUsageBytes - (entry.sizeBytes : Int) })
      else (.ok true, s)

/-- `InMemoryApiCache.delete`: removes the entry if present and reports
whether something was removed. -/
def deleteOp (cfg : ApiCacheConfig) (key : JSKey) (s : CacheState) :
    Except CacheError Bool × CacheState :=
  match validateAndSanitizeKey key with
  | .error e => if cfg.strictValidation then (.error e, s) else (.ok false, s)
  | .ok sanitizedKey =>
    match mapGet sanitizedKey s.store with
    | some entry =>
      (.ok true,
        { s with
          store := mapDelete sanitizedKey s.store
          accessOrder := mapDelete sanitizedKey s.accessOrder
          memoryUsageBytes := s.memoryUsageBytes - (entry.sizeBytes : Int) })
    | none =>
      (.ok false,
        { s with
          store := mapDelete sanitizedKey s.store
          accessOrder := mapDelete sanitizedKey s.accessOrder })

/-- `InMemoryApiCache.clear`. -/
def clearOp (s : CacheState) : CacheState :=
  { s with
    store := []
    accessOrder := []
    totalAccesses := 0
    totalHits := 0
    memoryUsageBytes := 0 }

/-- `CacheStats` (the two MB figures and the hit rate are exact rationals
here; the source computes them in floating point). -/
structure CacheStats where
  size : Nat
  maxSize : Nat
  memoryUsageMB : ℚ
  maxMemoryMB : Nat
  expired : Nat
  totalHits : Nat
  totalAccesses : Nat
  hitRate : ℚ
deriving DecidableEq, Repr

/-- `InMemoryApiCache.getStats`. -/
def getStatsOp (cfg : ApiCacheConfig) (now : Int) (s : CacheState) : CacheStats :=
  { size := s.store.length
    maxSize := cfg.maxSize
    memoryUsageMB := (s.memoryUsageBytes : ℚ) / (1024 * 1024)
    maxMemoryMB := cfg.maxMemoryMB
    expired := (s.store.filter (fun p => decide (now - p.2.timestamp > p.2.ttl))).length
    totalHits := s.totalHits
    totalAccesses := s.totalAccesses
    hitRate := if s.totalAccesses > 0 then (s.totalHits : ℚ) / (s.totalAccesses : ℚ) else 0 }

/-- `InMemoryApiCache.cleanup` (the periodic sweep): a no-op on a destroyed
instance; otherwise removes every expired entry from both maps in one batch
and decrements memory by their aggregate size. -/
def cleanupOp (now : Int) (s : CacheState) : CacheState :=
  if s.isDestroyed then s
  else
    let expired := s.store.filter (fun p => decide (now - p.2.timestamp > p.2.ttl))
    let toDelete := keysOf expired
    let memoryFreed : Nat := storeMemSum expired
    { s with
      store := toDelete.foldl (fun m k => mapDelete k m) s.store
      accessOrder := toDelete.foldl (fun m k => mapDelete k m) s.accessOrder
      memoryUsageBytes := s.memoryUsageBytes - (memoryFreed : Int) }

/-- `InMemoryApiCache.destroy`: returns immediately when already destroyed;
otherwise marks the instance destroyed, clears the sweep timer, and clears
all data. -/
def destroyOp (s : CacheState) : CacheState :=
  if s.isDestroyed then s
  else clearOp { s with isDestroyed := true, timerArmed := false }

/-- One public operation on the cache, with its `Date.now()` value where the
source reads the clock. -/
inductive CacheOp where
  | set (now : Int) (key : JSKey) (value : JSVal) (ttl : Option JSNum)
  | get (now : Int) (key : JSKey)
  | has (now : Int) (key : JSKey)
  | del (key : JSKey)
  | clear
  | cleanup (now : Int)
  | destroy

/-- The state transition of one public operation (results discarded). -/
def stepOp (cfg : ApiCacheConfig) (s : CacheState) : CacheOp → CacheState
  | .set now key value ttl => (setOp cfg now key value ttl s).2
  | .get now key => (getOp cfg now key s).2
  | .has now key => (hasOp cfg now key s).2
  | .del key => (deleteOp cfg key s).2
  | .clear => clearOp s
  | .cleanup now => cleanupOp now s
  | .destroy => destroyOp s

/-- Run a sequence of public operations from a starting state. -/
def runOps (cfg : ApiCacheConfig) (ops : List CacheOp) (s : CacheState) : CacheState :=
  ops.foldl (stepOp cfg) s

/-- The `{ data, cached, timestamp }` record returned by `withCache`. -/
structure CachedResponse where
  data : JSVal
  cached : Bool
  timestamp : Int

/-- `withCache`: probe the cache; on a non-`null` value return it as a hit;
otherwise run the fetcher (modelled by its outcome `fetched`), store the
result, and return it as a miss.  A fetcher failure (`.error`) propagates and
nothing is stored; errors thrown by `get`/`set` themselves propagate on the
left. -/
def withCacheOp {ε : Type} (cfg : ApiCacheConfig) (nowGet nowSet : Int) (key : String)
    (fetched : Except ε JSVal) (ttl : Option JSNum) (s : CacheState) :
    Except (CacheError ⊕ ε) CachedResponse × CacheState :=
  match getOp cfg nowGet (.str key) s with
  | (.error e, s1) => (.error (.inl e), s1)
  | (.ok cached, s1) =>
    if !cached.isNull then
      (.ok { data := cached, cached := true, timestamp := nowGet }, s1)
    else
      match fetched with
      | .error fe => (.error (.inr fe), s1)
      | .ok data =>
        match setOp cfg nowSet (.str key) data ttl s1 with
        | (.error e, s2) => (.error (.inl e), s2)
        | (.ok _, s2) => (.ok { data := data, cached := false, timestamp := nowSet }, s2)

/-- Well-formedness of a cache state: the invariants the source maintains
across operations — unique keys in both maps, the LRU index tracking exactly
the store's key set, no empty-string key (sanitization of a valid key never
yields one), and the memory counter equal to the sum of entry sizes. -/
structure WF (s : CacheState) : Prop where
  storeNodup : (keysOf s.store).Nodup
  aoNodup : (keysOf s.accessOrder).Nodup
  sameKeys : ∀ k, k ∈ keysOf s.store ↔ k ∈ keysOf s.accessOrder
  noEmptyKey : "" ∉ keysOf s.accessOrder
  memAcc : s.memoryUsageBytes = (storeMemSum s.store : Int)

/-- The source's `defaultConfig`. -/
def defaultConfig : ApiCacheConfig :=
  { defaultTtl := 300000
    maxSize := 1000
    maxMemoryMB := 50
    cleanupInterval := 60000
    strictValidation := false }

/-- The two-entry configuration of the LRU scenario (ample memory budget). -/
def lruConfig : ApiCacheConfig :=
  { defaultTtl := 300000
    maxSize := 2
    maxMemoryMB := 50
    cleanupInterval := 0
    strictValidation := false }

section MapLemmas

variable {α : Type}

/-- Unfolding lemma for the key list of an empty map. -/
@[simp] theorem keysOf_nil : keysOf ([] : List (String × α)) = [] := rfl

/-- Unfolding lemma for the key list of a non-empty map. -/
@[simp] theorem keysOf_cons (p : String × α) (l : List (String × α)) :
    keysOf (p :: l) = p.1 :: keysOf l := rfl

/-- A lookup misses exactly when the key is absent. -/
theorem mapGet_eq_none_iff (k : String) (l : List (String × α)) :
    mapGet k l = none ↔ k ∉ keysOf l := by
  induction l with
  | nil => simp [mapGet]
  | cons p rest ih =>
    obtain ⟨k', v⟩ := p
    by_cases h : k' = k
    · subst h
      simp [mapGet]
    · simp [mapGet, h, ih, Ne.symm h]

/-- A lookup succeeds exactly when the key is present. -/
theorem mapGet_isSome_iff (k : String) (l : List (String × α)) :
    (mapGet k l).isSome ↔ k ∈ keysOf l := by
  rw [Option.isSome_iff_ne_none, ne_eq, mapGet_eq_none_iff, not_not]

/-- Setting an existing key keeps the key list unchanged. -/
theorem keysOf_mapSet_mem (k : String) (v : α) (l : List (String × α))
    (h : k ∈ keysOf l) : keysOf (mapSet k v l) = keysOf l := by
  induction l with
  | nil => simp at h
  | cons p rest ih =>
    obtain ⟨k', v'⟩ := p
    by_cases hk : k' = k
    · subst hk
      simp [mapSet]
    · simp only [keysOf_cons, List.mem_cons] at h
      rcases h with h | h
      · exact absurd h.symm hk
      · simp [mapSet, hk, ih h]

/-- Setting a fresh key appends it at the end of the key list. -/
theorem keysOf_mapSet_not_mem (k : String) (v : α) (l : List (String × α))
    (h : k ∉ keysOf l) : keysOf (mapSet k v l) = keysOf l ++ [k] := by
  induction l with
  | nil => simp [mapSet]
  | cons p rest ih =>
    obtain ⟨k', v'⟩ := p
    simp only [keysOf_cons, List.mem_cons] at h
    push_neg at h
    simp [mapSet, Ne.symm h.1, ih h.2]

/-- Deleting a key erases its first occurrence from the key list. -/
theorem keysOf_mapDelete (k : String) (l : List (String × α)) :
    keysOf (mapDelete k l) = (keysOf l).erase k := by
  induction l with
  | nil => simp [mapDelete]
  | cons p rest ih =>
    obtain ⟨k', v'⟩ := p
    by_cases hk : k' = k
    · subst hk
      simp [mapDelete, List.erase_cons]
    · simp [mapDelete, List.erase_cons, hk, ih]

/-- Looking up the key just set returns the new value. -/
theorem mapGet_mapSet_self (k : String) (v : α) (l : List (String × α)) :
    mapGet k (mapSet k v l) = some v := by
  induction l with
  | nil => simp [mapSet, mapGet]
  | cons p rest ih =>
    obtain ⟨k', v'⟩ := p
    by_cases hk : k' = k
    · subst hk
      simp [mapSet, mapGet]
    · simp [mapSet, mapGet, hk, ih]

/-- Deleting an absent key changes nothing. -/
theorem mapDelete_not_mem (k : String) (l : List (String × α))
    (h : k ∉ keysOf l) : mapDelete k l = l := by
  induction l with
  | nil => simp [mapDelete]
  | cons p rest ih =>
    obtain ⟨k', v'⟩ := p
    simp only [keysOf_cons, List.mem_cons] at h
    push_neg at h
    simp [mapDelete, Ne.symm h.1, ih h.2]

/-- Deleting a present key shortens the list by exactly one. -/
theorem length_mapDelete_mem (k : String) (l : List (String × α))
    (h : k ∈ keysOf l) : (mapDelete k l).length + 1 = l.length := by
  induction l with
  | nil => simp at h
  | cons p rest ih =>
    obtain ⟨k', v'⟩ := p
    by_cases hk : k' = k
    · subst hk
      simp [mapDelete]
    · simp only [keysOf_cons, List.mem_cons] at h
      rcases h with h | h
      · exact absurd h.symm hk
      · simp [mapDelete, hk, ← ih h]

end MapLemmas

/-- Unfolding lemma: memory total of the empty store. -/
@[simp] theorem storeMemSum_nil : storeMemSum [] = 0 := rfl

/-- Unfolding lemma: memory total of a non-empty store. -/
@[simp] theorem storeMemSum_cons (p : String × CacheEntry) (l : List (String × CacheEntry)) :
    storeMemSum (p :: l) = p.2.sizeBytes + storeMemSum l := by
  simp [storeMemSum]

/-- Overwriting an entry exchanges the old size for the new one in the
memory total. -/
theorem storeMemSum_mapSet_some (k : String) (e old : CacheEntry)
    (l : List (String × CacheEntry)) (h : mapGet k l = some old) :
    storeMemSum (mapSet k e l) + old.sizeBytes = storeMemSum l + e.sizeBytes := by
  induction l with
  | nil => simp [mapGet] at h
  | cons p rest ih =>
    obtain ⟨k', v'⟩ := p
    by_cases hk : k' = k
    · subst hk
      simp [mapGet] at h
      subst h
      simp [mapSet]
      ring
    · simp only [mapGet, if_neg hk] at h
      simp only [mapSet, if_neg hk, storeMemSum_cons]
      have := ih h
      omega

/-- Inserting a fresh entry adds its size to the memory total. -/
theorem storeMemSum_mapSet_none (k : String) (e : CacheEntry)
    (l : List (String × CacheEntry)) (h : mapGet k l = none) :
    storeMemSum (mapSet k e l) = storeMemSum l + e.sizeBytes := by
  induction l with
  | nil => simp [mapSet]
  | cons p rest ih =>
    obtain ⟨k', v'⟩ := p
    by_cases hk : k' = k
    · subst hk
      simp [mapGet] at h
    · simp only [mapGet, if_neg hk] at h
      simp only [mapSet, if_neg hk, storeMemSum_cons]
      have := ih h
      omega

/-- Deleting a present entry removes its size from the memory total. -/
theorem storeMemSum_mapDelete_some (k : String) (old : CacheEntry)
    (l : List (String × CacheEntry)) (h : mapGet k l = some old) :
    storeMemSum (mapDelete k l) + old.sizeBytes = storeMemSum l := by
  induction l with
  | nil => simp [mapGet] at h
  | cons p rest ih =>
    obtain ⟨k', v'⟩ := p
    by_cases hk : k' = k
    · subst hk
      simp [mapGet] at h
      subst h
      simp [mapDelete]
      ring
    · simp only [mapGet, if_neg hk] at h
      simp only [mapDelete, if_neg hk, storeMemSum_cons]
      have := ih h
      omega

section FoldDelete

variable {α : Type}

/-- Iterated deletion acts on the key list as iterated erasure. -/
theorem keysOf_foldl_mapDelete (ks : List String) (l : List (String × α)) :
    keysOf (ks.foldl (fun m k => mapDelete k m) l) =
      ks.foldl (fun a k => a.erase k) (keysOf l) := by
  induction ks generalizing l with
  | nil => simp
  | cons k ks ih => simp [List.foldl_cons, ih, keysOf_mapDelete]

/-- Iterated erasure preserves distinctness. -/
theorem nodup_foldl_erase (ks base : List String) (h : base.Nodup) :
    (ks.foldl (fun b k => b.erase k) base).Nodup := by
  induction ks generalizing base with
  | nil => simpa
  | cons k ks ih => simpa using ih (base.erase k) (h.erase k)

/-- Membership after iterated erasure from a duplicate-free list. -/
theorem mem_foldl_erase (ks base : List String) (a : String) (h : base.Nodup) :
    a ∈ ks.foldl (fun b k => b.erase k) base ↔ a ∈ base ∧ a ∉ ks := by
  induction ks generalizing base with
  | nil => simp
  | cons k ks ih =>
    simp only [List.foldl_cons, List.mem_cons]
    rw [ih (base.erase k) (h.erase k), h.mem_erase_iff]
    constructor
    · rintro ⟨⟨hne, hmem⟩, hnin⟩
      exact ⟨hmem, by simp [hne, hnin]⟩
    · rintro ⟨hmem, hnin⟩
      push_neg at hnin
      exact ⟨⟨hnin.1, hmem⟩, hnin.2⟩

/-- Deleting keys that avoid the head leaves the head in place. -/
theorem foldl_mapDelete_cons (ks : List String) (x : String × α) (l : List (String × α))
    (hx : x.1 ∉ ks) :
    ks.foldl (fun m k => mapDelete k m) (x :: l) =
      x :: ks.foldl (fun m k => mapDelete k m) l := by
  induction ks generalizing l with
  | nil => simp
  | cons k ks ih =>
    simp only [List.mem_cons] at hx
    push_neg at hx
    simp only [List.foldl_cons]
    rw [show mapDelete k (x :: l) = x :: mapDelete k l by
      obtain ⟨x1, x2⟩ := x
      simp only at hx
      simp [mapDelete, hx.1]]
    exact ih (mapDelete k l) hx.2

end FoldDelete

/-- Batch-deleting exactly the keys that satisfy `p` from a duplicate-free
map leaves the entries that do not satisfy `p`, in order. -/
theorem foldl_mapDelete_filter (p : String × CacheEntry → Bool)
    (l : List (String × CacheEntry)) (h : (keysOf l).Nodup) :
    (keysOf (l.filter p)).foldl (fun m k => mapDelete k m) l =
      l.filter (fun x => !p x) := by
  induction l with
  | nil => simp
  | cons x rest ih =>
    simp only [keysOf_cons, List.nodup_cons] at h
    by_cases hp : p x
    · have hx : keysOf ((x :: rest).filter p) = x.1 :: keysOf (rest.filter p) := by
        simp [List.filter_cons, hp]
      rw [hx]
      simp only [List.foldl_cons]
      rw [show mapDelete x.1 (x :: rest) = rest by
        obtain ⟨x1, x2⟩ := x
        simp [mapDelete]]
      rw [ih h.2]
      simp [List.filter_cons, hp]
    · have hx : keysOf ((x :: rest).filter p) = keysOf (rest.filter p) := by
        simp [List.filter_cons, hp]
      rw [hx]
      have hnotin : x.1 ∉ keysOf (rest.filter p) := by
        intro hmem
        apply h.1
        have : keysOf (rest.filter p) ⊆ keysOf rest := by
          intro a ha
          simp only [keysOf, List.mem_map] at ha ⊢
          obtain ⟨q, hq, rfl⟩ := ha
          exact ⟨q, List.mem_of_mem_filter hq, rfl⟩
        exact this hmem
      rw [foldl_mapDelete_cons _ _ _ hnotin, ih h.2]
      simp [List.filter_cons, hp]

/-- The entries kept and the entries dropped by a filter partition the
memory total. -/
theorem storeMemSum_filter_partition (p : String × CacheEntry → Bool)
    (l : List (String × CacheEntry)) :
    storeMemSum (l.filter p) + storeMemSum (l.filter (fun x => !p x)) = storeMemSum l := by
  induction l with
  | nil => simp
  | cons x rest ih =>
    by_cases hp : p x <;> simp [List.filter_cons, hp] <;> omega

/-- `split` never returns an empty list of parts. -/
theorem splitOnChar_ne_nil (sep : Char) (l : List Char) : splitOnChar sep l ≠ [] := by
  induction l with
  | nil => simp [splitOnChar]
  | cons c rest ih =>
    simp only [splitOnChar]
    by_cases h : c = sep
    · simp [h]
    · simp only [if_neg h]
      cases hr : splitOnChar sep rest with
      | nil => simp
      | cons t ts => simp

/-- A one-part split means the separator is absent and the part is the whole
input. -/
theorem splitOnChar_eq_singleton (sep : Char) (l : List Char) (t : List Char)
    (h : splitOnChar sep l = [t]) : t = l := by
  induction l generalizing t with
  | nil =>
    simp only [splitOnChar, List.cons.injEq, and_true] at h
    exact h.symm
  | cons c rest ih =>
    simp only [splitOnChar] at h
    by_cases hc : c = sep
    · rw [if_pos hc] at h
      obtain ⟨h1, h2⟩ := List.cons.injEq _ _ _ _ ▸ h
      exact absurd h2 (splitOnChar_ne_nil sep rest)
    · rw [if_neg hc] at h
      cases hr : splitOnChar sep rest with
      | nil => exact absurd hr (splitOnChar_ne_nil sep rest)
      | cons t' ts =>
        rw [hr] at h
        simp only [List.cons.injEq] at h
        obtain ⟨h1, h2⟩ := h
        subst h1
        subst h2
        rw [ih t' hr]

/-- Joining the mapped parts of a split of a non-empty input is non-empty,
whenever the per-part function preserves non-emptiness. -/
theorem joinChar_map_ne_nil (sep : Char) (f : List Char → List Char)
    (hf : ∀ t, t ≠ [] → f t ≠ []) (l : List Char) (hl : l ≠ []) :
    joinChar sep ((splitOnChar sep l).map f) ≠ [] := by
  cases hs : splitOnChar sep l with
  | nil => exact absurd hs (splitOnChar_ne_nil sep l)
  | cons t ts =>
    cases ts with
    | nil =>
      simp only [List.map_cons, List.map_nil, joinChar]
      have ht := splitOnChar_eq_singleton sep l t hs
      subst ht
      exact hf t hl
    | cons t2 ts2 =>
      simp [joinChar]

/-- The email replacement of a non-empty token is non-empty. -/
theorem replaceEmailLikePattern_ne_nil (t : List Char) (h : t ≠ []) :
    replaceEmailLikePattern t ≠ [] := by
  unfold replaceEmailLikePattern
  dsimp only
  split
  · exact h
  · split
    · simp
    · exact h

/-- The email-sanitization stage preserves non-emptiness. -/
theorem sanitizeEmailPatterns_ne_nil (l : List Char) (h : l ≠ []) :
    sanitizeEmailPatterns l ≠ [] := by
  unfold sanitizeEmailPatterns
  split
  · exact h
  · exact joinChar_map_ne_nil ' ' _ replaceEmailLikePattern_ne_nil l h

/-- The IP-sanitization stage preserves non-emptiness. -/
theorem sanitizeIpPatterns_ne_nil (l : List Char) (h : l ≠ []) :
    sanitizeIpPatterns l ≠ [] := by
  unfold sanitizeIpPatterns
  refine joinChar_map_ne_nil ' ' _ (fun t ht => ?_) l h
  split
  · simp
  · exact ht

/-- The hash-sanitization stage preserves non-emptiness. -/
theorem sanitizeHashPatterns_ne_nil (l : List Char) (h : l ≠ []) :
    sanitizeHashPatterns l ≠ [] := by
  unfold sanitizeHashPatterns
  refine joinChar_map_ne_nil ' ' _ (fun t ht => ?_) l h
  split
  · simp
  · exact ht

/-- Truncation to 200 characters preserves non-emptiness. -/
theorem truncateToLimit_ne_nil (l : List Char) (h : l ≠ []) :
    truncateToLimit l ≠ [] := by
  cases l with
  | nil => exact absurd rfl h
  | cons c rest => simp [truncateToLimit]

/-- Sanitizing a non-empty key yields a non-empty key. -/
theorem sanitizeKey_ne_empty (s : String) (h : s ≠ "") : sanitizeKey s ≠ "" := by
  have hd : s.data ≠ [] := by
    intro hc
    apply h
    cases s with
    | mk d =>
      have hd2 : d = [] := hc
      subst hd2
      rfl
  intro hc
  have : (sanitizeKey s).data = [] := by rw [hc]
  rw [sanitizeKey] at this
  exact truncateToLimit_ne_nil _
    (sanitizeHashPatterns_ne_nil _
      (sanitizeIpPatterns_ne_nil _
        (sanitizeEmailPatterns_ne_nil _ hd))) this

/-- Successful key validation: the key was a string within bounds and the
result is its sanitization, which is non-empty. -/
theorem validateAndSanitizeKey_ok (key : JSKey) (sk : String)
    (h : validateAndSanitizeKey key = Except.ok sk) :
    sk ≠ "" ∧ ∃ str : String, key = JSKey.str str ∧ str ≠ "" ∧ str.length ≤ 1000 ∧
      sk = sanitizeKey str := by
  cases key with
  | nonStr => simp [validateAndSanitizeKey, validateKeyType] at h
  | str s =>
    by_cases hs : s = ""
    · subst hs
      simp [validateAndSanitizeKey, validateKeyType] at h
    · by_cases hlen : s.length > 1000
      · simp [validateAndSanitizeKey, validateKeyType, hs, hlen] at h
      · simp only [validateAndSanitizeKey, validateKeyType, if_neg hs, if_neg hlen,
          Except.ok.injEq] at h
        subst h
        exact ⟨sanitizeKey_ne_empty s hs, s, rfl, hs, by omega, rfl⟩

/-- Valid string keys pass validation and are sanitized. -/
theorem validateAndSanitizeKey_str (s : String) (hs : s ≠ "") (hlen : s.length ≤ 1000) :
    validateAndSanitizeKey (JSKey.str s) = Except.ok (sanitizeKey s) := by
  have hg : ¬ s.length > 1000 := by omega
  simp [validateAndSanitizeKey, validateKeyType, hs, hg]

/-- The initial state is well-formed. -/
theorem wf_initState (cfg : ApiCacheConfig) : WF (initState cfg) := by
  constructor <;> simp [initState, storeMemSum]

/-- In a well-formed state a non-empty store forces a non-empty LRU index. -/
theorem ao_ne_nil_of_store_ne_nil (s : CacheState) (h : WF s) (hne : s.store ≠ []) :
    s.accessOrder ≠ [] := by
  cases hs : s.store with
  | nil => exact absurd hs hne
  | cons p rest =>
    have hmem : p.1 ∈ keysOf s.store := by rw [hs]; simp
    have hmem2 := (h.sameKeys p.1).mp hmem
    intro hao
    rw [hao] at hmem2
    simp at hmem2

/-- Evicting the oldest entry preserves well-formedness. -/
theorem wf_evictOldest (s : CacheState) (h : WF s) : WF (evictOldest s) := by
  cases hao : s.accessOrder with
  | nil =>
    have he : evictOldest s = s := by simp [evictOldest, hao]
    rw [he]; exact h
  | cons p rest =>
    obtain ⟨firstKey, t⟩ := p
    by_cases hk : firstKey = ""
    · have he : evictOldest s = s := by simp [evictOldest, hao, hk]
      rw [he]; exact h
    · cases hget : mapGet firstKey s.store with
      | none =>
        have he : evictOldest s = { s with accessOrder := mapDelete firstKey s.accessOrder } := by
          simp [evictOldest, hao, hk, hget]
        rw [he]
        have hnotin : firstKey ∉ keysOf s.store := (mapGet_eq_none_iff _ _).mp hget
        refine ⟨h.storeNodup, ?_, ?_, ?_, h.memAcc⟩
        · simp only [keysOf_mapDelete]
          exact h.aoNodup.erase _
        · intro k
          simp only [keysOf_mapDelete]
          rw [h.aoNodup.mem_erase_iff]
          constructor
          · intro hmem
            refine ⟨?_, (h.sameKeys k).mp hmem⟩
            rintro rfl
            exact hnotin hmem
          · rintro ⟨hkne, hmem⟩
            exact (h.sameKeys k).mpr hmem
        · simp only [keysOf_mapDelete]
          intro hmem
          exact h.noEmptyKey (List.mem_of_mem_erase hmem)
      | some entry =>
        have he : evictOldest s =
            { s with
              store := mapDelete firstKey s.store
              accessOrder := mapDelete firstKey s.accessOrder
              memoryUsageBytes := s.memoryUsageBytes - (entry.sizeBytes : Int) } := by
          simp [evictOldest, hao, hk, hget]
        rw [he]
        refine ⟨?_, ?_, ?_, ?_, ?_⟩
        · simp only [keysOf_mapDelete]
          exact h.storeNodup.erase _
        · simp only [keysOf_mapDelete]
          exact h.aoNodup.erase _
        · intro k
          simp only [keysOf_mapDelete]
          rw [h.storeNodup.mem_erase_iff, h.aoNodup.mem_erase_iff, h.sameKeys k]
        · simp only [keysOf_mapDelete]
          intro hmem
          exact h.noEmptyKey (List.mem_of_mem_erase hmem)
        · show s.memoryUsageBytes - (entry.sizeBytes : Int) =
            (storeMemSum (mapDelete firstKey s.store) : Int)
          have hsum := storeMemSum_mapDelete_some firstKey entry s.store hget
          have hm := h.memAcc
          omega

/-- When the store is non-empty, one eviction shortens the LRU index by
exactly one entry (and the store by one as well). -/
theorem evictOldest_shrinks (s : CacheState) (h : WF s) (hne : s.store.length ≠ 0) :
    (evictOldest s).accessOrder.length + 1 = s.accessOrder.length := by
  have hsne : s.store ≠ [] := by
    intro hc
    rw [hc] at hne
    simp at hne
  have hao := ao_ne_nil_of_store_ne_nil s h hsne
  cases hao2 : s.accessOrder with
  | nil => exact absurd hao2 hao
  | cons p rest =>
    obtain ⟨firstKey, t⟩ := p
    have hkmem : firstKey ∈ keysOf s.accessOrder := by rw [hao2]; simp
    have hk : firstKey ≠ "" := by
      rintro rfl
      exact h.noEmptyKey hkmem
    have hsome : (mapGet firstKey s.store).isSome :=
      (mapGet_isSome_iff _ _).mpr ((h.sameKeys firstKey).mpr hkmem)
    cases hget : mapGet firstKey s.store with
    | none => rw [hget] at hsome; simp at hsome
    | some entry =>
      have he : (evictOldest s).accessOrder = mapDelete firstKey s.accessOrder := by
        simp [evictOldest, hao2, hk, hget]
      rw [he, hao2]
      simp [mapDelete]

/-- The capacity loop preserves well-formedness at every fuel. -/
theorem wf_ensureCapacityFuel (cfg : ApiCacheConfig) (n : Nat) (fuel : Nat) :
    ∀ (s : CacheState), WF s → WF (ensureCapacityFuel cfg n fuel s) := by
  induction fuel with
  | zero =>
    intro s h
    simpa [ensureCapacityFuel] using h
  | succ f ih =>
    intro s h
    unfold ensureCapacityFuel
    split
    · split
      · exact h
      · exact ih _ (wf_evictOldest s h)
    · exact h

/-- With fuel exceeding the LRU index length, the capacity loop establishes
both capacity bounds. -/
theorem ensureCapacityFuel_bounds (cfg : ApiCacheConfig) (n : Nat) (fuel : Nat) :
    ∀ (s : CacheState), WF s → s.accessOrder.length < fuel →
      (ensureCapacityFuel cfg n fuel s).store.length ≤ cfg.maxSize ∧
      (ensureCapacityFuel cfg n fuel s).memoryUsageBytes ≤ maxSizeBytes cfg := by
  induction fuel with
  | zero =>
    intro s h hf
    omega
  | succ f ih =>
    intro s h hf
    unfold ensureCapacityFuel
    split
    · split
      next hzero =>
        constructor
        · omega
        · have hstore : s.store = [] := List.length_eq_zero.mp hzero
          have hm := h.memAcc
          rw [hstore] at hm
          simp only [storeMemSum_nil, Nat.cast_zero] at hm
          rw [hm]
          unfold maxSizeBytes
          positivity
      next hzero =>
        have hprog := evictOldest_shrinks s h hzero
        exact ih (evictOldest s) (wf_evictOldest s h) (by omega)
    next hcond =>
      push_neg at hcond
      refine ⟨by omega, ?_⟩
      have hn : (0 : Int) ≤ (n : Int) := Int.natCast_nonneg n
      omega

/-- `ensureCapacity` preserves well-formedness. -/
theorem wf_ensureCapacity (cfg : ApiCacheConfig) (n : Nat) (s : CacheState) (h : WF s) :
    WF (ensureCapacity cfg n s) :=
  wf_ensureCapacityFuel cfg n (s.accessOrder.length + 1) s h

/-- Writing an entry (fresh or overwrite) with the source's memory-delta
computation preserves well-formedness. -/
theorem wf_insert (s1 : CacheState) (h1 : WF s1) (sk : String) (hsk : sk ≠ "")
    (e : CacheEntry) (now : Int) :
    WF { s1 with
      store := mapSet sk e s1.store
      accessOrder := mapSet sk now s1.accessOrder
      memoryUsageBytes := s1.memoryUsageBytes +
        (match mapGet sk s1.store with
         | some old => (e.sizeBytes : Int) - (old.sizeBytes : Int)
         | none => (e.sizeBytes : Int)) } := by
  cases hex : mapGet sk s1.store with
  | some old =>
    have hmem : sk ∈ keysOf s1.store := (mapGet_isSome_iff _ _).mp (by rw [hex]; rfl)
    have hmemao : sk ∈ keysOf s1.accessOrder := (h1.sameKeys sk).mp hmem
    refine ⟨?_, ?_, ?_, ?_, ?_⟩
    · simp only [keysOf_mapSet_mem _ _ _ hmem]
      exact h1.storeNodup
    · simp only [keysOf_mapSet_mem _ _ _ hmemao]
      exact h1.aoNodup
    · intro k
      simp only [keysOf_mapSet_mem _ _ _ hmem, keysOf_mapSet_mem _ _ _ hmemao]
      exact h1.sameKeys k
    · simp only [keysOf_mapSet_mem _ _ _ hmemao]
      exact h1.noEmptyKey
    · simp only [hex]
      have hsum := storeMemSum_mapSet_some sk e old s1.store hex
      have hm := h1.memAcc
      show s1.memoryUsageBytes + ((e.sizeBytes : Int) - (old.sizeBytes : Int)) =
        ((storeMemSum (mapSet sk e s1.store) : Nat) : Int)
      omega
  | none =>
    have hmem : sk ∉ keysOf s1.store := (mapGet_eq_none_iff _ _).mp hex
    have hmemao : sk ∉ keysOf s1.accessOrder := fun hc => hmem ((h1.sameKeys sk).mpr hc)
    refine ⟨?_, ?_, ?_, ?_, ?_⟩
    · simp only [keysOf_mapSet_not_mem _ _ _ hmem]
      simp [List.nodup_append, h1.storeNodup, hmem]
    · simp only [keysOf_mapSet_not_mem _ _ _ hmemao]
      simp [List.nodup_append, h1.aoNodup, hmemao]
    · intro k
      simp only [keysOf_mapSet_not_mem _ _ _ hmem, keysOf_mapSet_not_mem _ _ _ hmemao,
        List.mem_append]
      rw [h1.sameKeys k]
    · simp only [keysOf_mapSet_not_mem _ _ _ hmemao, List.mem_append]
      push_neg
      exact ⟨h1.noEmptyKey, by simpa using Ne.symm hsk⟩
    · simp only [hex]
      have hsum := storeMemSum_mapSet_none sk e s1.store hex
      have hm := h1.memAcc
      omega

/-- `set` preserves well-formedness. -/
theorem wf_setOp (cfg : ApiCacheConfig) (now : Int) (key : JSKey) (value : JSVal)
    (ttl : Option JSNum) (s : CacheState) (h : WF s) :
    WF (setOp cfg now key value ttl s).2 := by
  cases hk : validateAndSanitizeKey key with
  | error e => simpa [setOp, hk] using h
  | ok sk =>
    cases hv : validateInput value ttl with
    | error e => simpa [setOp, hk, hv] using h
    | ok sv =>
      have hskne : sk ≠ "" := (validateAndSanitizeKey_ok key sk hk).1
      have h1 : WF (ensureCapacity cfg (sizeBytesOf sv) s) := wf_ensureCapacity _ _ _ h
      have he2 : (setOp cfg now key value ttl s).2 =
          { ensureCapacity cfg (sizeBytesOf sv) s with
            store := mapSet sk
              { data := value, timestamp := now, ttl := entryTtlOf cfg ttl, hitCount := 0,
                lastAccessed := now, sizeBytes := sizeBytesOf sv }
              (ensureCapacity cfg (sizeBytesOf sv) s).store
            accessOrder := mapSet sk now (ensureCapacity cfg (sizeBytesOf sv) s).accessOrder
            memoryUsageBytes := (ensureCapacity cfg (sizeBytesOf sv) s).memoryUsageBytes +
              (match mapGet sk (ensureCapacity cfg (sizeBytesOf sv) s).store with
               | some old => ((sizeBytesOf sv : Nat) : Int) - (old.sizeBytes : Int)
               | none => ((sizeBytesOf sv : Nat) : Int)) } := by
        simp only [setOp, hk, hv]
      rw [he2]
      exact wf_insert _ h1 sk hskne _ now

/-- Hit/access counters play no role in well-formedness. -/
theorem wf_counters (s : CacheState) (h : WF s) (ta th : Nat) :
    WF { s with totalAccesses := ta, totalHits := th } :=
  ⟨h.storeNodup, h.aoNodup, h.sameKeys, h.noEmptyKey, h.memAcc⟩

/-- Removing a present entry from both maps with its memory decrement
preserves well-formedness. -/
theorem wf_remove (s : CacheState) (h : WF s) (sk : String) (entry : CacheEntry)
    (hget : mapGet sk s.store = some entry) :
    WF { s with
      store := mapDelete sk s.store
      accessOrder := mapDelete sk s.accessOrder
      memoryUsageBytes := s.memoryUsageBytes - (entry.sizeBytes : Int) } := by
  refine ⟨?_, ?_, ?_, ?_, ?_⟩
  · simp only [keysOf_mapDelete]
    exact h.storeNodup.erase _
  · simp only [keysOf_mapDelete]
    exact h.aoNodup.erase _
  · intro k
    simp only [keysOf_mapDelete]
    rw [h.storeNodup.mem_erase_iff, h.aoNodup.mem_erase_iff, h.sameKeys k]
  · simp only [keysOf_mapDelete]
    intro hmem
    exact h.noEmptyKey (List.mem_of_mem_erase hmem)
  · show s.memoryUsageBytes - (entry.sizeBytes : Int) =
      ((storeMemSum (mapDelete sk s.store) : Nat) : Int)
    have hsum := storeMemSum_mapDelete_some sk entry s.store hget
    have hm := h.memAcc
    omega

/-- `get` preserves well-formedness. -/
theorem wf_getOp (cfg : ApiCacheConfig) (now : Int) (key : JSKey) (s : CacheState)
    (h : WF s) : WF (getOp cfg now key s).2 := by
  cases hk : validateAndSanitizeKey key with
  | error e =>
    by_cases hsv : cfg.strictValidation <;> simpa [getOp, hk, hsv] using h
  | ok sk =>
    cases hentry : mapGet sk s.store with
    | none =>
      have he : (getOp cfg now key s).2 = { s with totalAccesses := s.totalAccesses + 1 } := by
        simp [getOp, hk, hentry]
      rw [he]
      exact wf_counters s h _ _
    | some entry =>
      have hmem : sk ∈ keysOf s.store := (mapGet_isSome_iff _ _).mp (by rw [hentry]; rfl)
      have hmemao : sk ∈ keysOf s.accessOrder := (h.sameKeys sk).mp hmem
      have hskne : sk ≠ "" := fun hc => h.noEmptyKey (hc ▸ hmemao)
      by_cases hexp : now - entry.timestamp > entry.ttl
      · have he : (getOp cfg now key s).2 =
            { s with
              totalAccesses := s.totalAccesses + 1
              store := mapDelete sk s.store
              accessOrder := mapDelete sk s.accessOrder
              memoryUsageBytes := s.memoryUsageBytes - (entry.sizeBytes : Int) } := by
          simp [getOp, hk, hentry, hexp]
        rw [he]
        exact wf_remove { s with totalAccesses := s.totalAccesses + 1 }
          (wf_counters s h _ _) sk entry hentry
      · have he : (getOp cfg now key s).2 =
            { s with
              totalAccesses := s.totalAccesses + 1
              totalHits := s.totalHits + 1
              store := mapSet sk
                ({ entry with hitCount := entry.hitCount + 1, lastAccessed := now }) s.store
              accessOrder := mapSet sk now (mapDelete sk s.accessOrder) } := by
          simp [getOp, hk, hentry, hexp]
        rw [he]
        have hnotin_erase : sk ∉ (keysOf s.accessOrder).erase sk := by
          intro hc
          exact absurd (h.aoNodup.mem_erase_iff.mp hc).1 (by simp)
        have hna : sk ∉ keysOf (mapDelete sk s.accessOrder) := by
          rw [keysOf_mapDelete]
          exact hnotin_erase
        refine ⟨?_, ?_, ?_, ?_, ?_⟩
        · simp only [keysOf_mapSet_mem _ _ _ hmem]
          exact h.storeNodup
        · simp only [keysOf_mapSet_not_mem _ _ _ hna, keysOf_mapDelete]
          rw [List.nodup_append]
          refine ⟨h.aoNodup.erase _, List.nodup_singleton _, ?_⟩
          intro a ha hb
          simp only [List.mem_singleton] at hb
          subst hb
          exact hnotin_erase ha
        · intro k
          simp only [keysOf_mapSet_mem _ _ _ hmem, keysOf_mapSet_not_mem _ _ _ hna,
            keysOf_mapDelete, List.mem_append, List.mem_singleton]
          rw [h.aoNodup.mem_erase_iff]
          constructor
          · intro hks
            by_cases hksk : k = sk
            · right; exact hksk
            · left; exact ⟨hksk, (h.sameKeys k).mp hks⟩
          · rintro (⟨hne, hmem2⟩ | rfl)
            · exact (h.sameKeys k).mpr hmem2
            · exact hmem
        · simp only [keysOf_mapSet_not_mem _ _ _ hna, keysOf_mapDelete, List.mem_append,
            List.mem_singleton]
          push_neg
          refine ⟨fun hc => h.noEmptyKey (List.mem_of_mem_erase hc), fun hc => hskne hc.symm⟩
        · show s.memoryUsageBytes = ((storeMemSum (mapSet sk
            ({ entry with hitCount := entry.hitCount + 1, lastAccessed := now }) s.store) : Nat) : Int)
          have hsum := storeMemSum_mapSet_some sk
            ({ entry with hitCount := entry.hitCount + 1, lastAccessed := now }) entry s.store hentry
          have hsz : ({ entry with hitCount := entry.hitCount + 1, lastAccessed := now } : CacheEntry).sizeBytes = entry.sizeBytes := rfl
          rw [hsz] at hsum
          have hm := h.memAcc
          omega

/-- `has` preserves well-formedness. -/
theorem wf_hasOp (cfg : ApiCacheConfig) (now : Int) (key : JSKey) (s : CacheState)
    (h : WF s) : WF (hasOp cfg now key s).2 := by
  cases hk : validateAndSanitizeKey key with
  | error e =>
    by_cases hsv : cfg.strictValidation <;> simpa [hasOp, hk, hsv] using h
  | ok sk =>
    cases hentry : mapGet sk s.store with
    | none =>
      have he : (hasOp cfg now key s).2 = s := by simp [hasOp, hk, hentry]
      rw [he]; exact h
    | some entry =>
      by_cases hexp : now - entry.timestamp > entry.ttl
      · have he : (hasOp cfg now key s).2 =
            { s with
              store := mapDelete sk s.store
              accessOrder := mapDelete sk s.accessOrder
              memoryUsageBytes := s.memoryUsageBytes - (entry.sizeBytes : Int) } := by
          simp [hasOp, hk, hentry, hexp]
        rw [he]
        exact wf_remove s h sk entry hentry
      · have he : (hasOp cfg now key s).2 = s := by simp [hasOp, hk, hentry, hexp]
        rw [he]; exact h

/-- `delete` preserves well-formedness. -/
theorem wf_deleteOp (cfg : ApiCacheConfig) (key : JSKey) (s : CacheState)
    (h : WF s) : WF (deleteOp cfg key s).2 := by
  cases hk : validateAndSanitizeKey key with
  | error e =>
    by_cases hsv : cfg.strictValidation <;> simpa [deleteOp, hk, hsv] using h
  | ok sk =>
    cases hentry : mapGet sk s.store with
    | none =>
      have hnm : sk ∉ keysOf s.store := (mapGet_eq_none_iff _ _).mp hentry
      have hnmao : sk ∉ keysOf s.accessOrder := fun hc => hnm ((h.sameKeys sk).mpr hc)
      have he : (deleteOp cfg key s).2 = s := by
        simp [deleteOp, hk, hentry, mapDelete_not_mem _ _ hnm, mapDelete_not_mem _ _ hnmao]
      rw [he]; exact h
    | some entry =>
      have he : (deleteOp cfg key s).2 =
          { s with
            store := mapDelete sk s.store
            accessOrder := mapDelete sk s.accessOrder
            memoryUsageBytes := s.memoryUsageBytes - (entry.sizeBytes : Int) } := by
        simp [deleteOp, hk, hentry]
      rw [he]
      exact wf_remove s h sk entry hentry

/-- `clear` yields a well-formed (empty) state. -/
theorem wf_clearOp (s : CacheState) : WF (clearOp s) := by
  constructor <;> simp [clearOp]

/-- The periodic sweep preserves well-formedness. -/
theorem wf_cleanupOp (now : Int) (s : CacheState) (h : WF s) : WF (cleanupOp now s) := by
  by_cases hd : s.isDestroyed
  · have he : cleanupOp now s = s := by simp [cleanupOp, hd]
    rw [he]; exact h
  · have he : cleanupOp now s =
        { s with
          store := (keysOf (s.store.filter (fun p => decide (now - p.2.timestamp > p.2.ttl)))).foldl
            (fun m k => mapDelete k m) s.store
          accessOrder := (keysOf (s.store.filter (fun p =>
            decide (now - p.2.timestamp > p.2.ttl)))).foldl (fun m k => mapDelete k m) s.accessOrder
          memoryUsageBytes := s.memoryUsageBytes -
            ((storeMemSum (s.store.filter (fun p => decide (now - p.2.timestamp > p.2.ttl))) : Nat) : Int) } := by
      simp [cleanupOp, hd]
    rw [he]
    set p : String × CacheEntry → Bool := fun q => decide (now - q.2.timestamp > q.2.ttl) with hp
    have hfilter := foldl_mapDelete_filter p s.store h.storeNodup
    refine ⟨?_, ?_, ?_, ?_, ?_⟩
    · show (keysOf ((keysOf (s.store.filter p)).foldl (fun m k => mapDelete k m) s.store)).Nodup
      rw [hfilter]
      exact h.storeNodup.sublist ((List.filter_sublist _).map _)
    · show (keysOf ((keysOf (s.store.filter p)).foldl (fun m k => mapDelete k m) s.accessOrder)).Nodup
      rw [keysOf_foldl_mapDelete]
      exact nodup_foldl_erase _ _ h.aoNodup
    · intro k
      show k ∈ keysOf ((keysOf (s.store.filter p)).foldl (fun m k => mapDelete k m) s.store) ↔
        k ∈ keysOf ((keysOf (s.store.filter p)).foldl (fun m k => mapDelete k m) s.accessOrder)
      rw [keysOf_foldl_mapDelete, keysOf_foldl_mapDelete,
        mem_foldl_erase _ _ _ h.storeNodup, mem_foldl_erase _ _ _ h.aoNodup, h.sameKeys k]
    · show "" ∉ keysOf ((keysOf (s.store.filter p)).foldl (fun m k => mapDelete k m) s.accessOrder)
      rw [keysOf_foldl_mapDelete]
      intro hmem
      exact h.noEmptyKey ((mem_foldl_erase _ _ _ h.aoNodup).mp hmem).1
    · show s.memoryUsageBytes - ((storeMemSum (s.store.filter p) : Nat) : Int) =
        ((storeMemSum ((keysOf (s.store.filter p)).foldl (fun m k => mapDelete k m) s.store) : Nat) : Int)
      rw [hfilter]
      have hpart := storeMemSum_filter_partition p s.store
      have hm := h.memAcc
      omega

/-- `destroy` yields a well-formed state. -/
theorem wf_destroyOp (s : CacheState) (h : WF s) : WF (destroyOp s) := by
  by_cases hd : s.isDestroyed
  · have he : destroyOp s = s := by simp [destroyOp, hd]
    rw [he]; exact h
  · have he : destroyOp s = clearOp { s with isDestroyed := true, timerArmed := false } := by
      simp [destroyOp, hd]
    rw [he]
    exact wf_clearOp _

/-- Every public operation preserves well-formedness. -/
theorem wf_stepOp (cfg : ApiCacheConfig) (s : CacheState) (op : CacheOp) (h : WF s) :
    WF (stepOp cfg s op) := by
  cases op with
  | set now key value ttl => exact wf_setOp cfg now key value ttl s h
  | get now key => exact wf_getOp cfg now key s h
  | has now key => exact wf_hasOp cfg now key s h
  | del key => exact wf_deleteOp cfg key s h
  | clear => exact wf_clearOp s
  | cleanup now => exact wf_cleanupOp now s h
  | destroy => exact wf_destroyOp s h

/-- Every operation sequence preserves well-formedness. -/
theorem wf_runOps (cfg : ApiCacheConfig) (ops : List CacheOp) :
    ∀ (s : CacheState), WF s → WF (runOps cfg ops s) := by
  induction ops with
  | nil => intro s h; simpa [runOps] using h
  | cons op rest ih =>
    intro s h
    exact ih (stepOp cfg s op) (wf_stepOp cfg s op h)

/-- C1: for every sequence of public operations (set, get, has, delete,
clear, the periodic cleanup sweep, destroy) from a fresh instance, after
each operation `memoryUsageBytes` equals the sum of `sizeBytes` over the
entries currently in the store; overwrites adjust by the size delta and do
not double-count. -/
theorem c1_memory_accounting_invariant (cfg : ApiCacheConfig) (ops : List CacheOp) :
    (runOps cfg ops (initState cfg)).memoryUsageBytes =
      ((storeMemSum (runOps cfg ops (initState cfg)).store : Nat) : Int) :=
  (wf_runOps cfg ops (initState cfg) (wf_initState cfg)).memAcc

/-- C2: a read-path operation (`get`/`has`) that observes an entry whose age
strictly exceeds its TTL removes it (store, LRU index, memory) and returns a
miss, without counting a hit or touching the LRU position; and `get` never
returns a non-null value except from a live (unexpired) entry. -/
theorem c2_lazy_expiry (cfg : ApiCacheConfig) (s : CacheState) (now : Int) (key : JSKey)
    (sk : String) (e : CacheEntry)
    (hk : validateAndSanitizeKey key = Except.ok sk)
    (he : mapGet sk s.store = some e)
    (hexp : now - e.timestamp > e.ttl) :
    getOp cfg now key s =
      (Except.ok JSVal.null,
        { s with
          totalAccesses := s.totalAccesses + 1
          store := mapDelete sk s.store
          accessOrder := mapDelete sk s.accessOrder
          memoryUsageBytes := s.memoryUsageBytes - (e.sizeBytes : Int) }) ∧
    hasOp cfg now key s =
      (Except.ok false,
        { s with
          store := mapDelete sk s.store
          accessOrder := mapDelete sk s.accessOrder
          memoryUsageBytes := s.memoryUsageBytes - (e.sizeBytes : Int) }) ∧
    (∀ (s2 : CacheState) (v : JSVal) (r : CacheState),
      getOp cfg now key s2 = (Except.ok v, r) → v ≠ JSVal.null →
      ∃ e2 : CacheEntry, mapGet sk s2.store = some e2 ∧ v = e2.data ∧
        now - e2.timestamp ≤ e2.ttl) := by
  refine ⟨?_, ?_, ?_⟩
  · simp [getOp, hk, he, hexp]
  · simp [hasOp, hk, he, hexp]
  · intro s2 v r hg hv
    cases he2 : mapGet sk s2.store with
    | none =>
      simp only [getOp, hk, he2] at hg
      simp at hg
      exact absurd hg.1.symm hv
    | some e2 =>
      simp only [getOp, hk, he2] at hg
      by_cases hexp2 : now - e2.timestamp > e2.ttl
      · rw [if_pos hexp2] at hg
        simp at hg
        exact absurd hg.1.symm hv
      · rw [if_neg hexp2] at hg
        simp at hg
        exact ⟨e2, rfl, hg.1.symm, by omega⟩

/-- Witness for C2 at a concrete expired entry (set with TTL 10 at time 0,
read at time 11). -/
theorem c2_lazy_expiry_witness :
    (getOp lruConfig 11 (JSKey.str "e")
      ((setOp lruConfig 0 (JSKey.str "e") (JSVal.num 1) (some (JSNum.int 10))
        (initState lruConfig)).2)).1 = Except.ok JSVal.null := by
  have h := c2_lazy_expiry lruConfig
    ((setOp lruConfig 0 (JSKey.str "e") (JSVal.num 1) (some (JSNum.int 10))
      (initState lruConfig)).2)
    11 (JSKey.str "e") "e"
    ({ data := JSVal.num 1, timestamp := 0, ttl := 10, hitCount := 0, lastAccessed := 0,
       sizeBytes := 2 })
    rfl rfl (by decide)
  rw [h.1]

/-- C3: from a well-formed state, `ensureCapacity(newSize)` leaves
`store.size ≤ maxEntries` and `memoryUsageBytes ≤ maxMemoryBytes`, and on an
empty store it stops immediately (so one oversized new entry is admitted
rather than looping). -/
theorem c3_ensure_capacity_bounds (cfg : ApiCacheConfig) (newSize : Nat) (s : CacheState)
    (h : WF s) :
    (ensureCapacity cfg newSize s).store.length ≤ cfg.maxSize ∧
    (ensureCapacity cfg newSize s).memoryUsageBytes ≤ maxSizeBytes cfg ∧
    (s.store = [] → ensureCapacity cfg newSize s = s) := by
  have hb := ensureCapacityFuel_bounds cfg newSize (s.accessOrder.length + 1) s h (by omega)
  refine ⟨hb.1, hb.2, ?_⟩
  intro hempty
  unfold ensureCapacity ensureCapacityFuel
  split
  · split
    · rfl
    next hz =>
      rw [hempty] at hz
      simp at hz
  · rfl

/-- Witness for C3 at the initial state of the default configuration. -/
theorem c3_ensure_capacity_bounds_witness :
    (ensureCapacity defaultConfig 5 (initState defaultConfig)).store.length ≤
      defaultConfig.maxSize ∧
    (ensureCapacity defaultConfig 5 (initState defaultConfig)).memoryUsageBytes ≤
      maxSizeBytes defaultConfig ∧
    ((initState defaultConfig).store = [] →
      ensureCapacity defaultConfig 5 (initState defaultConfig) = initState defaultConfig) :=
  c3_ensure_capacity_bounds defaultConfig 5 (initState defaultConfig)
    (wf_initState defaultConfig)

/-- C4: with `maxEntries = 2` and ample memory, the sequence
`set a; set b; get a; set c` leaves exactly the keys `a` and `c` — the `get`
touched `a`, so `b` is evicted as least recently used. -/
theorem c4_lru_eviction_order :
    keysOf (runOps lruConfig
      [CacheOp.set 0 (JSKey.str "a") (JSVal.num 1) none,
       CacheOp.set 0 (JSKey.str "b") (JSVal.num 2) none,
       CacheOp.get 0 (JSKey.str "a"),
       CacheOp.set 0 (JSKey.str "c") (JSVal.num 3) none]
      (initState lruConfig)).store = ["a", "c"] := by
  decide

/-- C5: under the default `strictValidation = false`, invalid input degrades
`get` to `null`, `has` and `delete` to `false` (state untouched), while
`set` always rethrows the validation error; non-string, empty, and over-long
keys are all invalid. -/
theorem c5_default_failure_semantics (cfg : ApiCacheConfig) (s : CacheState) (now : Int)
    (key : JSKey) (err : CacheError)
    (hcfg : cfg.strictValidation = false)
    (hk : validateAndSanitizeKey key = Except.error err) :
    getOp cfg now key s = (Except.ok JSVal.null, s) ∧
    hasOp cfg now key s = (Except.ok false, s) ∧
    deleteOp cfg key s = (Except.ok false, s) ∧
    (∀ (value : JSVal) (ttl : Option JSNum),
      setOp cfg now key value ttl s = (Except.error err, s)) ∧
    validateAndSanitizeKey JSKey.nonStr = Except.error CacheError.invalidKey ∧
    validateAndSanitizeKey (JSKey.str "") = Except.error CacheError.invalidKey ∧
    (∀ raw : String, 1000 < raw.length →
      validateAndSanitizeKey (JSKey.str raw) = Except.error CacheError.keyTooLong) := by
  refine ⟨?_, ?_, ?_, ?_, rfl, rfl, ?_⟩
  · simp [getOp, hk, hcfg]
  · simp [hasOp, hk, hcfg]
  · simp [deleteOp, hk, hcfg]
  · intro value ttl
    simp [setOp, hk]
  · intro raw hlen
    have hne : raw ≠ "" := by
      intro hc
      subst hc
      exact absurd hlen (by decide)
    simp [validateAndSanitizeKey, validateKeyType, hne, hlen]

/-- Witness for C5 with a non-string key against a fresh default cache. -/
theorem c5_default_failure_semantics_witness :
    getOp defaultConfig 0 JSKey.nonStr (initState defaultConfig) =
      (Except.ok JSVal.null, initState defaultConfig) ∧
    hasOp defaultConfig 0 JSKey.nonStr (initState defaultConfig) =
      (Except.ok false, initState defaultConfig) ∧
    deleteOp defaultConfig JSKey.nonStr (initState defaultConfig) =
      (Except.ok false, initState defaultConfig) ∧
    (∀ (value : JSVal) (ttl : Option JSNum),
      setOp defaultConfig 0 JSKey.nonStr value ttl (initState defaultConfig) =
        (Except.error CacheError.invalidKey, initState defaultConfig)) ∧
    validateAndSanitizeKey JSKey.nonStr = Except.error CacheError.invalidKey ∧
    validateAndSanitizeKey (JSKey.str "") = Except.error CacheError.invalidKey ∧
    (∀ raw : String, 1000 < raw.length →
      validateAndSanitizeKey (JSKey.str raw) = Except.error CacheError.keyTooLong) :=
  c5_default_failure_semantics defaultConfig (initState defaultConfig) 0 JSKey.nonStr
    CacheError.invalidKey rfl rfl

/-- Eviction never touches the destroyed flag or the timer. -/
theorem evictOldest_flags (s : CacheState) :
    (evictOldest s).isDestroyed = s.isDestroyed ∧ (evictOldest s).timerArmed = s.timerArmed := by
  unfold evictOldest
  split
  · exact ⟨rfl, rfl⟩
  · split
    · exact ⟨rfl, rfl⟩
    · split <;> exact ⟨rfl, rfl⟩

/-- The capacity loop never touches the destroyed flag or the timer. -/
theorem ensureCapacityFuel_flags (cfg : ApiCacheConfig) (n fuel : Nat) :
    ∀ s : CacheState, (ensureCapacityFuel cfg n fuel s).isDestroyed = s.isDestroyed ∧
      (ensureCapacityFuel cfg n fuel s).timerArmed = s.timerArmed := by
  induction fuel with
  | zero => intro s; simp [ensureCapacityFuel]
  | succ f ih =>
    intro s
    unfold ensureCapacityFuel
    split
    · split
      · exact ⟨rfl, rfl⟩
      · have h1 := ih (evictOldest s)
        have h2 := evictOldest_flags s
        exact ⟨h1.1.trans h2.1, h1.2.trans h2.2⟩
    · exact ⟨rfl, rfl⟩

/-- `set` never touches the destroyed flag or the timer (in particular it is
not guarded on a destroyed instance). -/
theorem setOp_flags (cfg : ApiCacheConfig) (now : Int) (key : JSKey) (value : JSVal)
    (ttl : Option JSNum) (s : CacheState) :
    (setOp cfg now key value ttl s).2.isDestroyed = s.isDestroyed ∧
    (setOp cfg now key value ttl s).2.timerArmed = s.timerArmed := by
  cases hk : validateAndSanitizeKey key with
  | error e => simp [setOp, hk]
  | ok sk =>
    cases hv : validateInput value ttl with
    | error e => simp [setOp, hk, hv]
    | ok sv =>
      have h := ensureCapacityFuel_flags cfg (sizeBytesOf sv) (s.accessOrder.length + 1) s
      simp only [setOp, hk, hv]
      exact ⟨h.1, h.2⟩

/-- `get` never touches the destroyed flag or the timer. -/
theorem getOp_flags (cfg : ApiCacheConfig) (now : Int) (key : JSKey) (s : CacheState) :
    (getOp cfg now key s).2.isDestroyed = s.isDestroyed ∧
    (getOp cfg now key s).2.timerArmed = s.timerArmed := by
  cases hk : validateAndSanitizeKey key with
  | error e => by_cases hsv : cfg.strictValidation <;> simp [getOp, hk, hsv]
  | ok sk =>
    cases he : mapGet sk s.store with
    | none => simp [getOp, hk, he]
    | some entry =>
      by_cases hexp : now - entry.timestamp > entry.ttl <;> simp [getOp, hk, he, hexp]

/-- `has` never touches the destroyed flag or the timer. -/
theorem hasOp_flags (cfg : ApiCacheConfig) (now : Int) (key : JSKey) (s : CacheState) :
    (hasOp cfg now key s).2.isDestroyed = s.isDestroyed ∧
    (hasOp cfg now key s).2.timerArmed = s.timerArmed := by
  cases hk : validateAndSanitizeKey key with
  | error e => by_cases hsv : cfg.strictValidation <;> simp [hasOp, hk, hsv]
  | ok sk =>
    cases he : mapGet sk s.store with
    | none => simp [hasOp, hk, he]
    | some entry =>
      by_cases hexp : now - entry.timestamp > entry.ttl <;> simp [hasOp, hk, he, hexp]

/-- `delete` never touches the destroyed flag or the timer. -/
theorem deleteOp_flags (cfg : ApiCacheConfig) (key : JSKey) (s : CacheState) :
    (deleteOp cfg key s).2.isDestroyed = s.isDestroyed ∧
    (deleteOp cfg key s).2.timerArmed = s.timerArmed := by
  cases hk : validateAndSanitizeKey key with
  | error e => by_cases hsv : cfg.strictValidation <;> simp [deleteOp, hk, hsv]
  | ok sk =>
    cases he : mapGet sk s.store with
    | none => simp [deleteOp, hk, he]
    | some entry => simp [deleteOp, hk, he]

/-- The sweep never touches the destroyed flag or the timer. -/
theorem cleanupOp_flags (now : Int) (s : CacheState) :
    (cleanupOp now s).isDestroyed = s.isDestroyed ∧
    (cleanupOp now s).timerArmed = s.timerArmed := by
  by_cases hd : s.isDestroyed <;> simp [cleanupOp, hd]

/-- After `destroy` the instance is marked destroyed. -/
theorem destroyOp_isDestroyed (s : CacheState) : (destroyOp s).isDestroyed = true := by
  by_cases hd : s.isDestroyed <;> simp [destroyOp, clearOp, hd]

/-- `destroy` on an already-destroyed instance is the identity. -/
theorem destroyOp_of_destroyed (s : CacheState) (h : s.isDestroyed = true) :
    destroyOp s = s := by
  simp [destroyOp, h]

/-- The sweep is a no-op on a destroyed instance. -/
theorem cleanupOp_of_destroyed (now : Int) (s : CacheState) (h : s.isDestroyed = true) :
    cleanupOp now s = s := by
  simp [cleanupOp, h]

/-- No public operation resurrects a destroyed instance. -/
theorem stepOp_destroyed (cfg : ApiCacheConfig) (s : CacheState) (op : CacheOp)
    (h : s.isDestroyed = true) : (stepOp cfg s op).isDestroyed = true := by
  cases op with
  | set now key value ttl => exact (setOp_flags cfg now key value ttl s).1.trans h
  | get now key => exact (getOp_flags cfg now key s).1.trans h
  | has now key => exact (hasOp_flags cfg now key s).1.trans h
  | del key => exact (deleteOp_flags cfg key s).1.trans h
  | clear => exact h
  | cleanup now => exact (cleanupOp_flags now s).1.trans h
  | destroy => exact destroyOp_isDestroyed s

/-- No public operation re-arms a cleared timer. -/
theorem stepOp_timer (cfg : ApiCacheConfig) (s : CacheState) (op : CacheOp)
    (h : s.timerArmed = false) : (stepOp cfg s op).timerArmed = false := by
  cases op with
  | set now key value ttl => exact (setOp_flags cfg now key value ttl s).2.trans h
  | get now key => exact (getOp_flags cfg now key s).2.trans h
  | has now key => exact (hasOp_flags cfg now key s).2.trans h
  | del key => exact (deleteOp_flags cfg key s).2.trans h
  | clear => exact h
  | cleanup now => exact (cleanupOp_flags now s).2.trans h
  | destroy => by_cases hd : s.isDestroyed <;> simp [stepOp, destroyOp, clearOp, hd, h]

/-- Destruction persists across any sequence of public operations. -/
theorem runOps_destroyed (cfg : ApiCacheConfig) (ops : List CacheOp) :
    ∀ s : CacheState, s.isDestroyed = true → (runOps cfg ops s).isDestroyed = true := by
  induction ops with
  | nil => intro s h; simpa [runOps] using h
  | cons op rest ih => intro s h; exact ih _ (stepOp_destroyed cfg s op h)

/-- A cleared timer stays cleared across any sequence of public operations. -/
theorem runOps_timer (cfg : ApiCacheConfig) (ops : List CacheOp) :
    ∀ s : CacheState, s.timerArmed = false → (runOps cfg ops s).timerArmed = false := by
  induction ops with
  | nil => intro s h; simpa [runOps] using h
  | cons op rest ih => intro s h; exact ih _ (stepOp_timer cfg s op h)

/-- C6 (counterexample): after `destroy()` the instance is *not* inert — a
subsequent `set` inserts an entry into the store, contradicting the claim
that every post-destroy call is a no-op leaving the cache empty. -/
theorem c6_teardown_counterexample :
    (destroyOp (initState lruConfig)).isDestroyed = true ∧
    (destroyOp (initState lruConfig)).store.length = 0 ∧
    (setOp lruConfig 0 (JSKey.str "k") (JSVal.num 1) none
      (destroyOp (initState lruConfig))).2.store.length = 1 := by
  decide

/-- C6 (amended): `destroy` is idempotent (a second `destroy` is a no-op and
cannot throw), it empties the cache, clears the timer, and the sweep is
permanently disabled — `cleanup` is a no-op and the timer is never re-armed
after any further sequence of public operations.  Other public operations
are, however, *not* guarded: a post-destroy `set` still inserts (see the
counterexample). -/
theorem c6_teardown_idempotent_amended (cfg : ApiCacheConfig) (s : CacheState)
    (h : s.isDestroyed = false) :
    destroyOp (destroyOp s) = destroyOp s ∧
    (destroyOp s).isDestroyed = true ∧
    (destroyOp s).store = [] ∧
    (destroyOp s).accessOrder = [] ∧
    (destroyOp s).timerArmed = false ∧
    (∀ (ops : List CacheOp) (now : Int),
      cleanupOp now (runOps cfg ops (destroyOp s)) = runOps cfg ops (destroyOp s)) ∧
    (∀ ops : List CacheOp, (runOps cfg ops (destroyOp s)).timerArmed = false) := by
  have hd := destroyOp_isDestroyed s
  refine ⟨destroyOp_of_destroyed _ hd, hd, ?_, ?_, ?_, ?_, ?_⟩
  · simp [destroyOp, h, clearOp]
  · simp [destroyOp, h, clearOp]
  · simp [destroyOp, h, clearOp]
  · intro ops now
    exact cleanupOp_of_destroyed now _ (runOps_destroyed cfg ops _ hd)
  · intro ops
    refine runOps_timer cfg ops _ ?_
    simp [destroyOp, h, clearOp]

/-- Witness for the amended C6 at a fresh instance. -/
theorem c6_teardown_idempotent_amended_witness :
    destroyOp (destroyOp (initState defaultConfig)) = destroyOp (initState defaultConfig) ∧
    (destroyOp (initState defaultConfig)).isDestroyed = true ∧
    (destroyOp (initState defaultConfig)).store = [] ∧
    (destroyOp (initState defaultConfig)).accessOrder = [] ∧
    (destroyOp (initState defaultConfig)).timerArmed = false ∧
    (∀ (ops : List CacheOp) (now : Int),
      cleanupOp now (runOps defaultConfig ops (destroyOp (initState defaultConfig))) =
        runOps defaultConfig ops (destroyOp (initState defaultConfig))) ∧
    (∀ ops : List CacheOp,
      (runOps defaultConfig ops (destroyOp (initState defaultConfig))).timerArmed = false) :=
  c6_teardown_idempotent_amended defaultConfig (initState defaultConfig) rfl

/-- C7: a `set` whose TTL fails validation (negative, NaN, infinite, or over
24 h) throws that error and leaves the whole observable state — store, LRU
index, memory counter, and `getStats().size` — unchanged; more generally any
`set` that returns an error has not mutated anything. -/
theorem c7_failed_write_atomicity (cfg : ApiCacheConfig) (s : CacheState) (now : Int)
    (key : JSKey) (value : JSVal) :
    (∀ (sk : String) (ttl : Option JSNum) (err : CacheError),
      validateAndSanitizeKey key = Except.ok sk → validateTTL ttl = Except.error err →
      setOp cfg now key value ttl s = (Except.error err, s)) ∧
    (∀ (ttl : Option JSNum) (e : CacheError) (s2 : CacheState),
      setOp cfg now key value ttl s = (Except.error e, s2) →
      s2 = s ∧ (getStatsOp cfg now s2).size = (getStatsOp cfg now s).size) ∧
    (∀ n : Int, n < 0 → validateTTL (some (JSNum.int n)) = Except.error CacheError.invalidTTL) ∧
    validateTTL (some JSNum.nan) = Except.error CacheError.invalidTTL ∧
    validateTTL (some JSNum.posInf) = Except.error CacheError.invalidTTL ∧
    validateTTL (some JSNum.negInf) = Except.error CacheError.invalidTTL ∧
    (∀ n : Int, 86400000 < n →
      validateTTL (some (JSNum.int n)) = Except.error CacheError.ttlTooLarge) := by
  have habort : ∀ (ttl : Option JSNum) (e : CacheError) (s2 : CacheState),
      setOp cfg now key value ttl s = (Except.error e, s2) → s2 = s := by
    intro ttl e s2 hset
    cases hk : validateAndSanitizeKey key with
    | error e2 =>
      simp [setOp, hk] at hset
      exact hset.2.symm
    | ok sk =>
      cases hv : validateInput value ttl with
      | error e2 =>
        simp [setOp, hk, hv] at hset
        exact hset.2.symm
      | ok sv =>
        simp [setOp, hk, hv] at hset
  refine ⟨?_, ?_, ?_, rfl, rfl, rfl, ?_⟩
  · intro sk ttl err hsk httl
    simp [setOp, hsk, validateInput, httl]
  · intro ttl e s2 hset
    have hs2 := habort ttl e s2 hset
    subst hs2
    exact ⟨rfl, rfl⟩
  · intro n hn
    simp [validateTTL, JSNum.ltInt, JSNum.isFinite, hn]
  · intro n hn
    have hn0 : ¬ n < 0 := by omega
    simp [validateTTL, JSNum.ltInt, JSNum.isFinite, JSNum.gtInt, hn0, hn]

/-- Witness for C7: `set("k", 5, ttl = −1)` throws `InvalidTTL` and leaves
the fresh state untouched. -/
theorem c7_failed_write_atomicity_witness :
    setOp defaultConfig 0 (JSKey.str "k") (JSVal.num 5) (some (JSNum.int (-1)))
      (initState defaultConfig) =
      (Except.error CacheError.invalidTTL, initState defaultConfig) :=
  (c7_failed_write_atomicity defaultConfig (initState defaultConfig) 0 (JSKey.str "k")
    (JSVal.num 5)).1 "k" (some (JSNum.int (-1))) CacheError.invalidTTL rfl rfl

/-- C8: key sanitization is deterministic — two runs on the same raw key
(≤ 1000 characters) agree — and its output never exceeds 200 characters.
(The linear-time bound of the spec is a resource property outside this
embedding.) -/
theorem c8_sanitization_deterministic_bounded (k : String) (hlen : k.length ≤ 1000) :
    sanitizeKey k = sanitizeKey k ∧ (sanitizeKey k).length ≤ 200 := by
  refine ⟨rfl, ?_⟩
  show (truncateToLimit (sanitizeHashPatterns (sanitizeIpPatterns
    (sanitizeEmailPatterns k.data)))).length ≤ 200
  unfold truncateToLimit
  exact List.length_take_le 200 _

/-- Witness for C8 on an adversarial-looking concrete key. -/
theorem c8_sanitization_deterministic_bounded_witness :
    sanitizeKey "user@example.com 10.0.0.1" = sanitizeKey "user@example.com 10.0.0.1" ∧
    (sanitizeKey "user@example.com 10.0.0.1").length ≤ 200 :=
  c8_sanitization_deterministic_bounded "user@example.com 10.0.0.1" (by decide)

/-- C10: an explicit TTL of `0` passes validation, the `set` succeeds, but
because the entry TTL is chosen with `ttl || defaultTtl` (which treats `0`
as absent) the stored entry carries the configured default TTL — so it does
not expire immediately (assuming a non-negative default). -/
theorem c10_ttl_zero_defaults (cfg : ApiCacheConfig) (s : CacheState) (now : Int)
    (raw : String) (value : JSVal) (sv : Option String)
    (hraw : raw ≠ "") (hlen : raw.length ≤ 1000)
    (hv : validateValue value = Except.ok sv) :
    validateTTL (some (JSNum.int 0)) = Except.ok () ∧
    entryTtlOf cfg (some (JSNum.int 0)) = cfg.defaultTtl ∧
    (setOp cfg now (JSKey.str raw) value (some (JSNum.int 0)) s).1 = Except.ok () ∧
    (∃ e : CacheEntry,
      mapGet (sanitizeKey raw)
        (setOp cfg now (JSKey.str raw) value (some (JSNum.int 0)) s).2.store = some e ∧
      e.ttl = cfg.defaultTtl ∧ e.data = value ∧ e.timestamp = now) ∧
    (0 ≤ cfg.defaultTtl → ¬ (now - now > cfg.defaultTtl)) := by
  have hk := validateAndSanitizeKey_str raw hraw hlen
  have hvi : validateInput value (some (JSNum.int 0)) = Except.ok sv := by
    simp [validateInput, validateTTL, JSNum.ltInt, JSNum.isFinite, JSNum.gtInt, hv]
  refine ⟨rfl, rfl, ?_, ?_, ?_⟩
  · simp [setOp, hk, hvi]
  · refine ⟨({ data := value, timestamp := now, ttl := entryTtlOf cfg (some (JSNum.int 0)), hitCount := 0, lastAccessed := now, sizeBytes := sizeBytesOf sv } : CacheEntry), ?_, rfl, rfl, rfl⟩
    simp only [setOp, hk, hvi]
    exact mapGet_mapSet_self _ _ _
  · intro hpos
    omega

/-- Witness for C10: `set("k", 5, ttl = 0)` stores the default TTL. -/
theorem c10_ttl_zero_defaults_witness :
    validateTTL (some (JSNum.int 0)) = Except.ok () ∧
    entryTtlOf defaultConfig (some (JSNum.int 0)) = defaultConfig.defaultTtl ∧
    (setOp defaultConfig 7 (JSKey.str "k") (JSVal.num 5) (some (JSNum.int 0))
      (initState defaultConfig)).1 = Except.ok () ∧
    (∃ e : CacheEntry,
      mapGet (sanitizeKey "k")
        (setOp defaultConfig 7 (JSKey.str "k") (JSVal.num 5) (some (JSNum.int 0))
          (initState defaultConfig)).2.store = some e ∧
      e.ttl = defaultConfig.defaultTtl ∧ e.data = JSVal.num 5 ∧ e.timestamp = 7) ∧
    (0 ≤ defaultConfig.defaultTtl → ¬ ((7 : Int) - 7 > defaultConfig.defaultTtl)) :=
  c10_ttl_zero_defaults defaultConfig (initState defaultConfig) 7 "k" (JSVal.num 5)
    (some "5") (by decide) (by decide) rfl

/-- `get` never adds a key to the store. -/
theorem getOp_keys_subset (cfg : ApiCacheConfig) (now : Int) (key : JSKey) (s : CacheState) :
    keysOf (getOp cfg now key s).2.store ⊆ keysOf s.store := by
  cases hk : validateAndSanitizeKey key with
  | error e =>
    by_cases hsv : cfg.strictValidation <;>
      (simp only [getOp, hk, hsv]; exact fun a ha => ha)
  | ok sk =>
    cases he : mapGet sk s.store with
    | none =>
      simp only [getOp, hk, he]
      exact fun a ha => ha
    | some entry =>
      by_cases hexp : now - entry.timestamp > entry.ttl
      · simp only [getOp, hk, he, if_pos hexp]
        intro a ha
        simp only [keysOf_mapDelete] at ha
        exact List.mem_of_mem_erase ha
      · simp only [getOp, hk, he, if_neg hexp]
        intro a ha
        have hmem : sk ∈ keysOf s.store := (mapGet_isSome_iff _ _).mp (by rw [he]; rfl)
        rw [keysOf_mapSet_mem _ _ _ hmem] at ha
        exact ha

/-- C9: `withCache` returns a cache hit as `{ data, cached := true }` with
the fetcher's outcome irrelevant; on a miss it runs the fetcher, stores the
result under the key with the given-or-default TTL and returns
`cached := false`; and a fetcher failure propagates with nothing stored. -/
theorem c9_withCache_contract {ε : Type} (cfg : ApiCacheConfig) (nowGet nowSet : Int)
    (key : String) (ttl : Option JSNum) (s : CacheState) :
    (∀ (v : JSVal) (s1 : CacheState),
      getOp cfg nowGet (JSKey.str key) s = (Except.ok v, s1) → v ≠ JSVal.null →
      ∀ fetched : Except ε JSVal,
        withCacheOp cfg nowGet nowSet key fetched ttl s =
          (Except.ok { data := v, cached := true, timestamp := nowGet }, s1)) ∧
    (∀ (s1 : CacheState) (d : JSVal) (s2 : CacheState),
      getOp cfg nowGet (JSKey.str key) s = (Except.ok JSVal.null, s1) →
      setOp cfg nowSet (JSKey.str key) d ttl s1 = (Except.ok (), s2) →
      withCacheOp cfg nowGet nowSet key (Except.ok d : Except ε JSVal) ttl s =
        (Except.ok { data := d, cached := false, timestamp := nowSet }, s2) ∧
      ∃ e : CacheEntry, mapGet (sanitizeKey key) s2.store = some e ∧ e.data = d ∧
        e.ttl = entryTtlOf cfg ttl) ∧
    (∀ (s1 : CacheState) (fe : ε),
      getOp cfg nowGet (JSKey.str key) s = (Except.ok JSVal.null, s1) →
      withCacheOp cfg nowGet nowSet key (Except.error fe : Except ε JSVal) ttl s =
        (Except.error (Sum.inr fe), s1) ∧
      keysOf s1.store ⊆ keysOf s.store) := by
  refine ⟨?_, ?_, ?_⟩
  · intro v s1 hget hv fetched
    have hvn : v.isNull = false := by
      cases v <;> simp_all [JSVal.isNull]
    simp [withCacheOp, hget, hvn]
  · intro s1 d s2 hget hset
    constructor
    · simp [withCacheOp, hget, JSVal.isNull, hset]
    · cases hk : validateAndSanitizeKey (JSKey.str key) with
      | error e => simp [setOp, hk] at hset
      | ok sk =>
        obtain ⟨-, raw, hstr, -, -, hsk2⟩ := validateAndSanitizeKey_ok _ _ hk
        have hraw : raw = key := by
          injection hstr with h
          exact h.symm
        subst hraw
        cases hv2 : validateInput d ttl with
        | error e => simp [setOp, hk, hv2] at hset
        | ok sv =>
          simp only [setOp, hk, hv2, Prod.mk.injEq] at hset
          obtain ⟨-, hs2⟩ := hset
          subst hs2
          refine ⟨({ data := d, timestamp := nowSet, ttl := entryTtlOf cfg ttl, hitCount := 0, lastAccessed := nowSet, sizeBytes := sizeBytesOf sv } : CacheEntry), ?_, rfl, rfl⟩
          rw [← hsk2]
          exact mapGet_mapSet_self _ _ _
  · intro s1 fe hget
    constructor
    · simp [withCacheOp, hget, JSVal.isNull]
    · have h := getOp_keys_subset cfg nowGet (JSKey.str key) s
      rw [hget] at h
      exact h

/-- Witness for C9: a hit on a freshly populated key returns the cached
value with `cached = true` and does not consult the fetcher's outcome. -/
theorem c9_withCache_contract_witness :
    withCacheOp defaultConfig 0 0 "k" (Except.ok (JSVal.num 7) : Except Unit JSVal) none
      ((setOp defaultConfig 0 (JSKey.str "k") (JSVal.num 5) none (initState defaultConfig)).2) =
    (Except.ok { data := JSVal.num 5, cached := true, timestamp := 0 },
      (getOp defaultConfig 0 (JSKey.str "k")
        ((setOp defaultConfig 0 (JSKey.str "k") (JSVal.num 5) none
          (initState defaultConfig)).2)).2) :=
  (c9_withCache_contract defaultConfig 0 0 "k" none
    ((setOp defaultConfig 0 (JSKey.str "k") (JSVal.num 5) none (initState defaultConfig)).2)).1
    (JSVal.num 5) _ rfl (fun h => JSVal.noConfusion h) (Except.ok (JSVal.num 7))
